import Mathlib

/-!
Verification of the depth-image-to-laserscan conversion core
(`DepthImageToLaserScan.h`, template member `convert`).

Doubles are modelled as real numbers extended with the three non-finite
IEEE values (`D`).  The depth image is a flat sample buffer with an
element stride, exactly as the C++ code reads it through
`depth_row[u]` after pointer offsets.  Out-of-bounds buffer accesses
(undefined behaviour in C++) are modelled by returning `none`.
-/

namespace DepthScan

/-- A C++ `double`: a finite real or one of the non-finite IEEE values. -/
inductive D where
  | fin : ℝ → D
  | pinf : D
  | ninf : D
  | nan : D

/-- Camera intrinsics used by `convert`: `cam_model.fx()`, `cam_model.cx()`,
`cam_model.cy()`. -/
structure Cam where
  fx : ℝ
  cx : ℝ
  cy : ℝ

/-- The depth image as `convert` sees it: `width`, `height`, the element
stride `row_step = step / sizeof(T)` and the raw sample buffer. -/
structure Img (T : Type) where
  width : ℕ
  height : ℕ
  row_step : ℕ
  data : List T

/-- The fields of the output `sensor_msgs::LaserScan` that `convert` reads,
plus the `ranges` array it updates. -/
structure ScanIn where
  angle_min : ℝ
  angle_increment : ℝ
  range_min : ℝ
  range_max : ℝ
  ranges : List D

/-- The interface `convert` needs from `DepthTraits<T>`: the validity
predicate, the C `double` conversion of a raw sample (`asReal` on finite
samples, `asD` in general), `toMeters` on finite samples, and
`unit = toMeters(T(1))`. -/
structure Enc (T : Type) where
  valid : T → Bool
  asReal : T → ℝ
  asD : T → D
  toMetersR : T → ℝ
  unit : ℝ

/-- Modelled from the spec: `DepthTraits<uint16_t>` (the file
`depth_traits.h` is not among the sources).  Raw samples are integer
millimeters, `toMeters` multiplies by 0.001, and the raw value 0 is the
invalid "no return" sentinel. -/
noncomputable def uint16Enc : Enc ℕ where
  valid n := n != 0
  asReal n := (n : ℝ)
  asD n := D.fin (n : ℝ)
  toMetersR n := (n : ℝ) * (1 / 1000)
  unit := 1 / 1000

/-- Modelled from the spec: `DepthTraits<float>` (the file
`depth_traits.h` is not among the sources).  Raw samples are meters,
`toMeters` is the identity, and NaN and the infinities are invalid. -/
noncomputable def floatEnc : Enc D where
  valid d := match d with | D.fin _ => true | _ => false
  asReal d := match d with | D.fin x => x | _ => 0
  asD d := d
  toMetersR d := match d with | D.fin x => x | _ => 0
  unit := 1

/-- The C library `atan2(y, x)`. -/
noncomputable def atan2 (y x : ℝ) : ℝ :=
  if 0 < x then Real.arctan (y / x)
  else if x < 0 then
    (if 0 ≤ y then Real.arctan (y / x) + Real.pi else Real.arctan (y / x) - Real.pi)
  else if 0 < y then Real.pi / 2
  else if y < 0 then -(Real.pi / 2)
  else 0

/-- The C++ conversion of a `double` to `int`: truncation toward zero. -/
noncomputable def toIntC (q : ℝ) : ℤ := if 0 ≤ q then ⌊q⌋ else ⌈q⌉

/-- The starting row of the vertical window, from line 202 of the header:
`const int offset = (int)(center_y - scan_height/2);` — `scan_height/2`
is C integer division (truncation toward zero), and the cast truncates. -/
noncomputable def offsetOf (cy : ℝ) (scan_height : ℤ) : ℤ :=
  toIntC (cy - (Int.tdiv scan_height 2 : ℤ))

/-- The spec's formula for the starting row, written from the spec's own
words for comparison with `offsetOf`:
`offset = round(principal_point_y − scan_height/2)`. -/
noncomputable def offsetSpec (cy : ℝ) (scan_height : ℤ) : ℤ :=
  round (cy - (scan_height : ℝ) / 2)

/-- Line 197 of the header:
`const float constant_x = unit_scaling / cam_model.fx();`. -/
noncomputable def constantX (enc : Enc T) (cam : Cam) : ℝ := enc.unit / cam.fx

/-- The bearing angle of column `u`, from line 211 of the header:
`th = -atan2((double)(u - center_x) * constant_x, unit_scaling)`. -/
noncomputable def thOf (enc : Enc T) (cam : Cam) (u : ℤ) : ℝ :=
  -(atan2 (((u : ℝ) - cam.cx) * constantX enc cam) enc.unit)

/-- The bin index of column `u`, from line 212 of the header:
`const int index = (th - scan_msg->angle_min) / scan_msg->angle_increment;`
— the `double` quotient converted to `int` by truncation toward zero. -/
noncomputable def indexOf (enc : Enc T) (cam : Cam) (scan : ScanIn) (u : ℤ) : ℤ :=
  toIntC ((thOf enc cam u - scan.angle_min) / scan.angle_increment)

/-- The spec's formula for the bin index, written from the spec's own
words for comparison with `indexOf`:
`index = floor((θ − angle_min) / angle_increment)`. -/
noncomputable def indexSpec (enc : Enc T) (cam : Cam) (scan : ScanIn) (u : ℤ) : ℤ :=
  ⌊(thOf enc cam u - scan.angle_min) / scan.angle_increment⌋

/-- The candidate range of a pixel, lines 210–222 of the header: the raw
sample passed through as a `double` when invalid, and
`hypot((u - center_x) * depth * constant_x, toMeters(depth))` when valid. -/
noncomputable def candOf (enc : Enc T) (cam : Cam) (u : ℤ) (depth : T) : D :=
  if enc.valid depth then
    D.fin (Real.sqrt ((((u : ℝ) - cam.cx) * enc.asReal depth * constantX enc cam) ^ 2 +
      enc.toMetersR depth ^ 2))
  else enc.asD depth

/-- Strict membership in the acceptance window, for finite values only. -/
def inWindow (v : D) (rmin rmax : ℝ) : Prop :=
  match v with
  | D.fin x => rmin < x ∧ x < rmax
  | _ => False

/-- Strict comparison of two `double`s; false whenever either is not finite,
as every IEEE comparison with NaN is, and as `+∞ < +∞` is. -/
def dLT : D → D → Prop
  | D.fin a, D.fin b => a < b
  | D.fin _, D.pinf => True
  | D.ninf, D.fin _ => True
  | D.ninf, D.pinf => True
  | _, _ => False

/-- Modelled from the spec: the reduction policy `use_point` (only its
declaration is among the sources; its body is in the missing translation
unit).  A candidate strictly inside the acceptance window
`(range_min, range_max)` replaces the stored value when the stored value
is not in the window or the candidate is strictly shorter; a candidate
outside the window never replaces anything. -/
def use_point (new_value old_value : D) (rmin rmax : ℝ) : Prop :=
  inWindow new_value rmin rmax ∧
    (¬ inWindow old_value rmin rmax ∨ dLT new_value old_value)

open Classical in
/-- Lines 226–228 of the header applied to one bin value:
`if (use_point(r, old, range_min, range_max)) old = r;`. -/
noncomputable def stepVal (old r : D) (rmin rmax : ℝ) : D :=
  if use_point r old rmin rmax then r else old

open Classical in
/-- The conditional write to `scan_msg->ranges[index]` on lines 226–228. -/
noncomputable def binUpdate (rs : List D) (i : ℕ) (r : D) (rmin rmax : ℝ) : List D :=
  if use_point r (rs.getD i D.nan) rmin rmax then rs.set i r else rs

/-- The buffer read `depth_row[u]` for row `v`, i.e. the sample at flat
element position `v * row_step + u`; `none` when the position leaves the
buffer (undefined behaviour in C++). -/
def readPix (img : Img T) (v u : ℤ) : Option T :=
  if 0 ≤ v * (img.row_step : ℤ) + u then
    img.data.get? (v * (img.row_step : ℤ) + u).toNat
  else none

/-- One iteration of the inner loop, lines 208–228: read the sample,
compute the candidate and the bin index, and conditionally write the bin.
`none` models the undefined behaviour of an out-of-bounds buffer access,
either of the depth sample or of `scan_msg->ranges[index]`. -/
noncomputable def stepPixel (enc : Enc T) (img : Img T) (cam : Cam) (scan : ScanIn)
    (rs : List D) (v u : ℤ) : Option (List D) :=
  match readPix img v u with
  | none => none
  | some depth =>
    if 0 ≤ indexOf enc cam scan u ∧ (indexOf enc cam scan u).toNat < rs.length then
      some (binUpdate rs (indexOf enc cam scan u).toNat (candOf enc cam u depth)
        scan.range_min scan.range_max)
    else none

/-- The total version of `stepPixel`, equal to it whenever the pixel's
accesses are in bounds (`stepPixel_eq_applyPix`). -/
noncomputable def applyPix (enc : Enc T) (img : Img T) (cam : Cam) (scan : ScanIn)
    (rs : List D) (p : ℤ × ℤ) : List D :=
  match readPix img p.1 p.2 with
  | none => rs
  | some depth =>
    if 0 ≤ indexOf enc cam scan p.2 ∧ (indexOf enc cam scan p.2).toNat < rs.length then
      binUpdate rs (indexOf enc cam scan p.2).toNat (candOf enc cam p.2 depth)
        scan.range_min scan.range_max
    else rs

/-- The pixels visited by the double loop on lines 205–229: rows `offset`
to `offset + scan_height_ − 1` (outer), columns `0` to `width − 1`
(inner), in that order. -/
def windowPixels (offset m : ℤ) (w : ℕ) : List (ℤ × ℤ) :=
  (List.range m.toNat).flatMap
    (fun k => (List.range w).map (fun (j : ℕ) => (offset + (k : ℤ), (j : ℤ))))

/-- The conversion core, lines 186–231 of the header.  `scan_height` is the
function argument (used only for the starting-row offset on line 202);
`scan_height_` is the stored configuration member that bounds the row
loop on line 205.  The result is the final contents of
`scan_msg->ranges`, or `none` when an access leaves a buffer. -/
noncomputable def convert (enc : Enc T) (img : Img T) (cam : Cam) (scan : ScanIn)
    (scan_height scan_height_ : ℤ) : Option (List D) :=
  (windowPixels (offsetOf cam.cy scan_height) scan_height_ img.width).foldlM
    (fun rs p => stepPixel enc img cam scan rs p.1 p.2) scan.ranges

/-- Modelled from the spec: the window-bounds precondition check performed
before the conversion core runs (the body of `convert_msg`, the caller
that performs it, is not among the sources).  A window with `offset < 0`
or `offset + scan_height > height` is rejected before any sample is read
or any bin written. -/
noncomputable def convert_checked (enc : Enc T) (img : Img T) (cam : Cam) (scan : ScanIn)
    (scan_height scan_height_ : ℤ) : Except Unit (List D) :=
  if offsetOf cam.cy scan_height < 0 ∨
      offsetOf cam.cy scan_height + scan_height > (img.height : ℤ) then
    Except.error ()
  else
    match convert enc img cam scan scan_height scan_height_ with
    | some rs => Except.ok rs
    | none => Except.error ()

/-- The ordering used to compare the bin values of two runs: finite
ranges compare as reals, and every non-finite value — the `+∞` sentinel
in particular — counts as largest. -/
def dle : D → D → Prop
  | D.fin a, D.fin b => a ≤ b
  | D.fin _, _ => True
  | _, D.fin _ => False
  | _, _ => True

/-- Invariant of a ranges entry during a run started from a
sentinel-initialized array: the `+∞` sentinel or a value strictly inside
the acceptance window. -/
def entryOk (rmin rmax : ℝ) (v : D) : Prop := v = D.pinf ∨ inWindow v rmin rmax

/-- All entries of the ranges array satisfy `entryOk`. -/
def rangesOk (rmin rmax : ℝ) (rs : List D) : Prop :=
  ∀ i : ℕ, i < rs.length → entryOk rmin rmax (rs.getD i D.nan)

/-- A pixel whose two buffer accesses stay in bounds: its depth sample
exists and its bin index lies inside a `ranges` array of length `len`. -/
def pixOk (enc : Enc T) (img : Img T) (cam : Cam) (scan : ScanIn) (len : ℕ)
    (p : ℤ × ℤ) : Prop :=
  (readPix img p.1 p.2).isSome ∧
    0 ≤ indexOf enc cam scan p.2 ∧ (indexOf enc cam scan p.2).toNat < len

theorem atan2_zero_of_pos {x : ℝ} (hx : 0 < x) : atan2 0 x = 0 := by
  rw [atan2, if_pos hx, zero_div, Real.arctan_zero]

theorem thOf_center (enc : Enc T) (cam : Cam) (u : ℤ) (hu : (u : ℝ) = cam.cx)
    (hunit : 0 < enc.unit) : thOf enc cam u = 0 := by
  rw [thOf, hu, sub_self, zero_mul, atan2_zero_of_pos hunit, neg_zero]

theorem toIntC_of_nonneg {q : ℝ} (h : 0 ≤ q) : toIntC q = ⌊q⌋ := if_pos h

theorem toIntC_of_neg {q : ℝ} (h : q < 0) : toIntC q = ⌈q⌉ := if_neg (not_le.mpr h)

theorem toIntC_mono {x y : ℝ} (h : x ≤ y) : toIntC x ≤ toIntC y := by
  rw [toIntC, toIntC]
  rcases le_or_lt 0 x with hx | hx
  · rw [if_pos hx, if_pos (hx.trans h)]
    exact Int.floor_le_floor h
  · rw [if_neg (not_le.mpr hx)]
    rcases le_or_lt 0 y with hy | hy
    · rw [if_pos hy]
      calc ⌈x⌉ ≤ 0 := Int.ceil_le.mpr (by exact_mod_cast hx.le)
        _ ≤ ⌊y⌋ := Int.le_floor.mpr (by exact_mod_cast hy)
    · rw [if_neg (not_le.mpr hy)]
      exact Int.ceil_le_ceil h

theorem indexOf_center (enc : Enc T) (cam : Cam) (scan : ScanIn) (u : ℤ)
    (hu : (u : ℝ) = cam.cx) (hunit : 0 < enc.unit) :
    indexOf enc cam scan u = toIntC ((0 - scan.angle_min) / scan.angle_increment) := by
  rw [indexOf, thOf_center enc cam u hu hunit]

theorem mem_windowPixels {o m : ℤ} {w : ℕ} {v u : ℤ} :
    (v, u) ∈ windowPixels o m w ↔ o ≤ v ∧ v < o + m ∧ 0 ≤ u ∧ u < (w : ℤ) := by
  unfold windowPixels
  simp only [List.mem_flatMap, List.mem_range, List.mem_map]
  constructor
  · rintro ⟨k, hk, j, hj, hvu⟩
    have hk' : (k : ℤ) < m := Int.lt_toNat.mp hk
    rw [Prod.mk.injEq] at hvu
    obtain ⟨rfl, rfl⟩ := hvu
    refine ⟨by omega, by omega, by omega, by omega⟩
  · rintro ⟨h1, h2, h3, h4⟩
    refine ⟨(v - o).toNat, by omega, u.toNat, by omega, ?_⟩
    have : ((v - o).toNat : ℤ) = v - o := by omega
    rw [this]
    have : (u.toNat : ℤ) = u := by omega
    rw [this]
    congr 1
    omega

theorem binUpdate_length (rs : List D) (i : ℕ) (r : D) (a b : ℝ) :
    (binUpdate rs i r a b).length = rs.length := by
  unfold binUpdate
  split
  · exact List.length_set rs i r
  · rfl

theorem binUpdate_getD_ne (rs : List D) (i j : ℕ) (r : D) (a b : ℝ) (h : j ≠ i) :
    (binUpdate rs i r a b).getD j D.nan = rs.getD j D.nan := by
  unfold binUpdate
  split
  · rw [List.getD_eq_getElem?_getD, List.getD_eq_getElem?_getD,
      List.getElem?_set_ne (Ne.symm h)]
  · rfl

theorem applyPix_getD_ne (enc : Enc T) (img : Img T) (cam : Cam) (scan : ScanIn)
    (rs : List D) (p : ℤ × ℤ) (j : ℕ) (h : j ≠ (indexOf enc cam scan p.2).toNat) :
    (applyPix enc img cam scan rs p).getD j D.nan = rs.getD j D.nan := by
  unfold applyPix
  cases hr : readPix img p.1 p.2 with
  | none => rfl
  | some depth =>
    dsimp only
    split
    · exact binUpdate_getD_ne rs _ j _ _ _ h
    · rfl

theorem applyPix_length (enc : Enc T) (img : Img T) (cam : Cam) (scan : ScanIn)
    (rs : List D) (p : ℤ × ℤ) :
    (applyPix enc img cam scan rs p).length = rs.length := by
  unfold applyPix
  cases readPix img p.1 p.2 with
  | none => rfl
  | some depth =>
    dsimp only
    split
    · exact binUpdate_length ..
    · rfl

theorem stepPixel_eq_applyPix (enc : Enc T) (img : Img T) (cam : Cam) (scan : ScanIn)
    (rs : List D) (p : ℤ × ℤ) (h : pixOk enc img cam scan rs.length p) :
    stepPixel enc img cam scan rs p.1 p.2 = some (applyPix enc img cam scan rs p) := by
  obtain ⟨hr, hb1, hb2⟩ := h
  unfold stepPixel applyPix
  cases hx : readPix img p.1 p.2 with
  | none => rw [hx] at hr; exact absurd hr (by simp)
  | some depth =>
    dsimp only
    rw [if_pos ⟨hb1, hb2⟩, if_pos ⟨hb1, hb2⟩]

theorem stepPixel_some_imp (enc : Enc T) (img : Img T) (cam : Cam) (scan : ScanIn)
    (rs rs' : List D) (v u : ℤ)
    (h : stepPixel enc img cam scan rs v u = some rs') :
    rs' = applyPix enc img cam scan rs (v, u) := by
  unfold stepPixel at h
  unfold applyPix
  cases hr : readPix img v u with
  | none => rw [hr] at h; exact absurd h (by simp)
  | some depth =>
    rw [hr] at h
    dsimp only at h ⊢
    split at h
    · rename_i hb
      rw [if_pos hb]
      exact (Option.some.injEq .. ▸ h).symm
    · exact absurd h (by simp)

theorem foldlM_stepPixel_eq (enc : Enc T) (img : Img T) (cam : Cam) (scan : ScanIn)
    (L : List (ℤ × ℤ)) :
    ∀ rs : List D, (∀ p ∈ L, pixOk enc img cam scan rs.length p) →
      L.foldlM (fun a p => stepPixel enc img cam scan a p.1 p.2) rs =
        some (L.foldl (applyPix enc img cam scan) rs) := by
  induction L with
  | nil => intro rs _; rfl
  | cons p L ih =>
    intro rs h
    rw [List.foldlM_cons,
      stepPixel_eq_applyPix enc img cam scan rs p (h p (List.mem_cons_self p L))]
    exact ih (applyPix enc img cam scan rs p)
      (fun q hq => by
        rw [applyPix_length]
        exact h q (List.mem_cons_of_mem p hq))

theorem foldlM_stepPixel_some (enc : Enc T) (img : Img T) (cam : Cam) (scan : ScanIn)
    (L : List (ℤ × ℤ)) :
    ∀ rs out : List D,
      L.foldlM (fun a p => stepPixel enc img cam scan a p.1 p.2) rs = some out →
      out = L.foldl (applyPix enc img cam scan) rs := by
  induction L with
  | nil =>
    intro rs out h
    exact (Option.some.injEq .. ▸ h).symm
  | cons p L ih =>
    obtain ⟨pv, pu⟩ := p
    intro rs out h
    rw [List.foldlM_cons] at h
    cases hs : stepPixel enc img cam scan rs pv pu with
    | none => rw [hs] at h; exact absurd h (by simp)
    | some rs1 =>
      rw [hs] at h
      have h2 := ih rs1 out h
      rw [h2, List.foldl_cons,
        ← stepPixel_some_imp enc img cam scan rs rs1 pv pu hs]

theorem convert_eq_foldl (enc : Enc T) (img : Img T) (cam : Cam) (scan : ScanIn)
    (sh m : ℤ)
    (h : ∀ p ∈ windowPixels (offsetOf cam.cy sh) m img.width,
      pixOk enc img cam scan scan.ranges.length p) :
    convert enc img cam scan sh m =
      some ((windowPixels (offsetOf cam.cy sh) m img.width).foldl
        (applyPix enc img cam scan) scan.ranges) :=
  foldlM_stepPixel_eq enc img cam scan _ scan.ranges h

theorem convert_some_imp (enc : Enc T) (img : Img T) (cam : Cam) (scan : ScanIn)
    (sh m : ℤ) (out : List D) (h : convert enc img cam scan sh m = some out) :
    out = (windowPixels (offsetOf cam.cy sh) m img.width).foldl
      (applyPix enc img cam scan) scan.ranges :=
  foldlM_stepPixel_some enc img cam scan _ scan.ranges out h

theorem windowPixels_one_one (o : ℤ) : windowPixels o 1 1 = [(o, 0)] := by
  unfold windowPixels
  rw [show Int.toNat 1 = 1 from rfl, show List.range 1 = [0] from rfl]
  rw [List.flatMap_cons, List.flatMap_nil, List.map_cons, List.map_nil]
  simp

theorem convert_one (enc : Enc T) (img : Img T) (cam : Cam) (scan : ScanIn)
    (sh : ℤ) (hw : img.width = 1) :
    convert enc img cam scan sh 1 =
      stepPixel enc img cam scan scan.ranges (offsetOf cam.cy sh) 0 := by
  unfold convert
  rw [hw, windowPixels_one_one]
  cases h : stepPixel enc img cam scan scan.ranges (offsetOf cam.cy sh) 0 with
  | none => rw [List.foldlM_cons]; rw [h]; rfl
  | some rs => rw [List.foldlM_cons]; rw [h]; rfl

theorem stepPixel_eval (enc : Enc T) (img : Img T) (cam : Cam) (scan : ScanIn)
    (v u : ℤ) (depth : T) (rs : List D)
    (hr : readPix img v u = some depth)
    (hidx : indexOf enc cam scan u = 0)
    (hlen : 0 < rs.length) :
    stepPixel enc img cam scan rs v u =
      some (binUpdate rs 0 (candOf enc cam u depth)
        scan.range_min scan.range_max) := by
  unfold stepPixel
  rw [hr]
  dsimp only
  rw [hidx]
  rw [if_pos ⟨le_refl 0, by simpa using hlen⟩]
  rfl

theorem binUpdate_write (rs : List D) (i : ℕ) (r : D) (a b : ℝ)
    (h : use_point r (rs.getD i D.nan) a b) :
    binUpdate rs i r a b = rs.set i r := by
  unfold binUpdate
  rw [if_pos h]

theorem candOf_invalid (enc : Enc T) (cam : Cam) (u : ℤ) (depth : T)
    (h : enc.valid depth = false) : candOf enc cam u depth = enc.asD depth := by
  unfold candOf
  rw [if_neg]
  simp [h]

theorem candOf_valid (enc : Enc T) (cam : Cam) (u : ℤ) (depth : T)
    (h : enc.valid depth = true) :
    candOf enc cam u depth =
      D.fin (Real.sqrt ((((u : ℝ) - cam.cx) * enc.asReal depth *
        constantX enc cam) ^ 2 + enc.toMetersR depth ^ 2)) := by
  unfold candOf
  rw [if_pos h]

/-- C2: the reduction policy keeps the shortest candidate strictly inside
the acceptance window: an out-of-window candidate never overwrites an
in-window stored value, an in-window candidate always replaces an
out-of-window (sentinel or out-of-range) stored value, and for two
in-window candidates `r1 < r2` hitting the same bin the final value is
`r1` in either processing order. -/
theorem c2_shortest_in_range (rmin rmax : ℝ) :
    (∀ r old : D, ¬ inWindow r rmin rmax → stepVal old r rmin rmax = old) ∧
    (∀ r old : D, inWindow r rmin rmax → ¬ inWindow old rmin rmax →
      stepVal old r rmin rmax = r) ∧
    (∀ r1 r2 : ℝ, ∀ s : D, ¬ inWindow s rmin rmax →
      rmin < r1 → r1 < r2 → r2 < rmax →
      stepVal (stepVal s (D.fin r1) rmin rmax) (D.fin r2) rmin rmax = D.fin r1 ∧
      stepVal (stepVal s (D.fin r2) rmin rmax) (D.fin r1) rmin rmax = D.fin r1) := by
  refine ⟨?_, ?_, ?_⟩
  · intro r old hr
    unfold stepVal
    rw [if_neg]
    intro hc
    exact hr hc.1
  · intro r old hr hold
    unfold stepVal
    rw [if_pos ⟨hr, Or.inl hold⟩]
  · intro r1 r2 s hs h1 h12 h2
    have hw1 : inWindow (D.fin r1) rmin rmax := ⟨h1, h12.trans h2⟩
    have hw2 : inWindow (D.fin r2) rmin rmax := ⟨h1.trans h12, h2⟩
    have hstep1 : stepVal s (D.fin r1) rmin rmax = D.fin r1 := by
      unfold stepVal
      rw [if_pos ⟨hw1, Or.inl hs⟩]
    have hstep2 : stepVal s (D.fin r2) rmin rmax = D.fin r2 := by
      unfold stepVal
      rw [if_pos ⟨hw2, Or.inl hs⟩]
    constructor
    · rw [hstep1]
      unfold stepVal
      rw [if_neg]
      intro hc
      rcases hc.2 with hbad | hbad
      · exact hbad hw1
      · simp only [dLT] at hbad
        linarith
    · rw [hstep2]
      unfold stepVal
      rw [if_pos ⟨hw1, Or.inr (by simp only [dLT]; exact h12)⟩]

theorem c2_shortest_in_range_witness :
    stepVal (stepVal D.pinf (D.fin 1) 0.1 10) (D.fin 2) 0.1 10 = D.fin 1 := by
  have h := ((c2_shortest_in_range 0.1 10).2.2 1 2 D.pinf (by simp [inWindow])
    (by norm_num) (by norm_num) (by norm_num)).1
  exact h

/-- C4: when the requested row window leaves the image
(`offset < 0` or `offset + scan_height > height`), the conversion is
rejected with an error before any sample is read or any bin written;
the output ranges are not produced at all. -/
theorem c4_window_bounds_check (enc : Enc T) (img : Img T) (cam : Cam) (scan : ScanIn)
    (sh m : ℤ)
    (h : offsetOf cam.cy sh < 0 ∨ offsetOf cam.cy sh + sh > (img.height : ℤ)) :
    convert_checked enc img cam scan sh m = Except.error () := by
  unfold convert_checked
  rw [if_pos h]

theorem c4_window_bounds_check_witness :
    convert_checked uint16Enc (Img.mk 1 0 1 []) (Cam.mk 1 0 0) (ScanIn.mk 0 1 0 10 []) 1 1
      = Except.error () := by
  apply c4_window_bounds_check
  right
  have h1 : Int.tdiv 1 2 = 0 := rfl
  have h0 : offsetOf (Cam.mk 1 0 0).cy 1 = 0 := by
    rw [offsetOf, h1]
    show toIntC ((0 : ℝ) - ((0 : ℤ) : ℝ)) = 0
    rw [toIntC, if_pos (by norm_num)]
    norm_num
  rw [h0]
  norm_num

/-- C5 counterexample: the bin index is the C++ `double`-to-`int`
conversion of `(θ − angle_min) / angle_increment`, which truncates toward
zero; at the principal-point column with `angle_min = 1/2` and
`angle_increment = 1` the quotient is `−1/2`, the code computes bin 0,
while the claimed `floor` is `−1`. -/
theorem c5_counterexample :
    indexOf floatEnc (Cam.mk 1 0 0) (ScanIn.mk (1/2) 1 0 10 []) 0 = 0 ∧
    indexSpec floatEnc (Cam.mk 1 0 0) (ScanIn.mk (1/2) 1 0 10 []) 0 = -1 := by
  have hth : thOf floatEnc (Cam.mk 1 0 0) 0 = 0 :=
    thOf_center _ _ _ (by norm_num) (by norm_num [floatEnc])
  constructor
  · rw [indexOf, hth, toIntC, if_neg (by norm_num)]
    show ⌈((0 : ℝ) - 1/2) / 1⌉ = 0
    norm_num
  · rw [indexSpec, hth]
    show ⌊((0 : ℝ) - 1/2) / 1⌋ = -1
    norm_num

/-- C5 amended: the bearing angle is
`θ = −atan2((u − principal_point_x)·constant_x, unit_scaling)`, a function
of the column alone (the bin a pixel can touch does not depend on its row
or depth value), and the bin index is the truncation toward zero of
`(θ − angle_min) / angle_increment`, which coincides with the claimed
`floor` whenever that quotient is nonnegative. -/
theorem c5_bearing_and_bin (enc : Enc T) (img : Img T) (cam : Cam) (scan : ScanIn)
    (u : ℤ) :
    thOf enc cam u = -(atan2 (((u : ℝ) - cam.cx) * (enc.unit / cam.fx)) enc.unit) ∧
    indexOf enc cam scan u =
      toIntC ((thOf enc cam u - scan.angle_min) / scan.angle_increment) ∧
    (0 ≤ (thOf enc cam u - scan.angle_min) / scan.angle_increment →
      indexOf enc cam scan u = indexSpec enc cam scan u) ∧
    (∀ v : ℤ, ∀ rs : List D, ∀ j : ℕ, j ≠ (indexOf enc cam scan u).toNat →
      (applyPix enc img cam scan rs (v, u)).getD j D.nan = rs.getD j D.nan) := by
  refine ⟨rfl, rfl, ?_, ?_⟩
  · intro hq
    rw [indexOf, indexSpec, toIntC_of_nonneg hq]
  · intro v rs j hj
    exact applyPix_getD_ne enc img cam scan rs (v, u) j hj

theorem c5_bearing_and_bin_witness :
    indexOf floatEnc (Cam.mk 1 0 0) (ScanIn.mk 0 1 0 10 []) 0 =
      indexSpec floatEnc (Cam.mk 1 0 0) (ScanIn.mk 0 1 0 10 []) 0 := by
  have hth : thOf floatEnc (Cam.mk 1 0 0) 0 = 0 :=
    thOf_center _ _ _ (by norm_num) (by norm_num [floatEnc])
  exact (c5_bearing_and_bin floatEnc (Img.mk 1 1 1 []) (Cam.mk 1 0 0)
    (ScanIn.mk 0 1 0 10 []) 0).2.2.1 (by rw [hth]; norm_num)

/-- C6 counterexample: the starting row is the truncation of
`center_y − scan_height/2` (C integer division), not its rounding: at
`center_y = 100.5`, `scan_height = 2`, the code starts at row 99 while
the claimed `round` gives 100. -/
theorem c6_counterexample :
    offsetOf (201/2 : ℝ) 2 = 99 ∧ offsetSpec (201/2 : ℝ) 2 = 100 := by
  constructor
  · rw [offsetOf, show Int.tdiv 2 2 = 1 from rfl, toIntC, if_pos (by norm_num)]
    show ⌊(201/2 : ℝ) - ((1 : ℤ) : ℝ)⌋ = 99
    norm_num
  · rw [offsetSpec, round_eq]
    norm_num

/-- C6 amended: the starting row is
`offset = trunc(principal_point_y − scan_height div 2)` (C integer
division and truncation toward zero, not rounding), and the rows iterated
are exactly `offset` through `offset + scan_height_ − 1`, where
`scan_height_` is the converter's stored member, not the `scan_height`
argument supplied to `convert`. -/
theorem c6_window_start_and_rows (cy : ℝ) (sh m : ℤ) (w : ℕ) :
    offsetOf cy sh = toIntC (cy - (Int.tdiv sh 2 : ℤ)) ∧
    (∀ v u : ℤ, (v, u) ∈ windowPixels (offsetOf cy sh) m w ↔
      offsetOf cy sh ≤ v ∧ v < offsetOf cy sh + m ∧ 0 ≤ u ∧ u < (w : ℤ)) := by
  refine ⟨rfl, ?_⟩
  intro v u
  exact mem_windowPixels

theorem c6_window_start_and_rows_witness :
    offsetOf (5 : ℝ) 3 = toIntC ((5 : ℝ) - ((Int.tdiv 3 2 : ℤ) : ℝ)) :=
  (c6_window_start_and_rows 5 3 2 4).1

theorem offsetOf_zero_one : offsetOf (0 : ℝ) 1 = 0 := by
  rw [offsetOf, show Int.tdiv 1 2 = 0 from rfl, toIntC, if_pos (by norm_num)]
  norm_num

theorem indexOf_center_zero (enc : Enc T) (cam : Cam) (scan : ScanIn) (u : ℤ)
    (hu : (u : ℝ) = cam.cx) (hunit : 0 < enc.unit) (hmin : scan.angle_min = 0)
    (hinc : scan.angle_increment = 1) : indexOf enc cam scan u = 0 := by
  rw [indexOf_center enc cam scan u hu hunit, hmin, hinc, toIntC,
    if_pos (by norm_num)]
  norm_num

theorem uint16_invalid_not_inWindow {rmin rmax : ℝ} (h : 0 ≤ rmin) (n : ℕ)
    (hv : uint16Enc.valid n = false) :
    ¬ inWindow (uint16Enc.asD n) rmin rmax := by
  have hn : n = 0 := by simpa [uint16Enc] using hv
  subst hn
  intro hw
  have h1 : rmin < ((0 : ℕ) : ℝ) := hw.1
  norm_num at h1
  linarith

theorem float_invalid_not_inWindow {rmin rmax : ℝ} (d : D)
    (hv : floatEnc.valid d = false) :
    ¬ inWindow (floatEnc.asD d) rmin rmax := by
  cases d with
  | fin x => exact absurd hv (by simp [floatEnc])
  | pinf => exact fun hw => hw
  | ninf => exact fun hw => hw
  | nan => exact fun hw => hw

theorem applyPix_getD_preserve (enc : Enc T) (img : Img T) (cam : Cam)
    (scan : ScanIn) (rs : List D) (p : ℤ × ℤ) (i : ℕ)
    (h : ∀ depth, readPix img p.1 p.2 = some depth →
      (indexOf enc cam scan p.2).toNat = i →
      ¬ inWindow (candOf enc cam p.2 depth) scan.range_min scan.range_max) :
    (applyPix enc img cam scan rs p).getD i D.nan = rs.getD i D.nan := by
  by_cases hi : i = (indexOf enc cam scan p.2).toNat
  · unfold applyPix
    cases hr : readPix img p.1 p.2 with
    | none => rfl
    | some depth =>
      dsimp only
      split
      · unfold binUpdate
        rw [if_neg (fun hc => h depth hr hi.symm hc.1)]
      · rfl
  · exact applyPix_getD_ne enc img cam scan rs p i hi

theorem foldl_applyPix_getD_eq (enc : Enc T) (img : Img T) (cam : Cam)
    (scan : ScanIn) (i : ℕ) (L : List (ℤ × ℤ)) :
    ∀ rs : List D,
      (∀ p ∈ L, ∀ depth, readPix img p.1 p.2 = some depth →
        (indexOf enc cam scan p.2).toNat = i →
        ¬ inWindow (candOf enc cam p.2 depth) scan.range_min scan.range_max) →
      (L.foldl (applyPix enc img cam scan) rs).getD i D.nan = rs.getD i D.nan := by
  induction L with
  | nil => intro rs _; rfl
  | cons p L ih =>
    intro rs h
    rw [List.foldl_cons,
      ih (applyPix enc img cam scan rs p)
        (fun q hq => h q (List.mem_cons_of_mem p hq)),
      applyPix_getD_preserve enc img cam scan rs p i (h p (List.mem_cons_self p L))]

/-- C1 counterexample: `convert` has no bin-bounds check.  With
`angle_min = −5` and a single-bin output, the principal-point column's
bin index is 5, outside `[0, 1)`; the sample is not discarded — the
unconditional access `scan_msg->ranges[index]` leaves the array
(undefined behaviour, modelled by `none`) instead of returning the ranges
intact. -/
theorem c1_counterexample :
    indexOf floatEnc (Cam.mk 1 0 0) (ScanIn.mk (-5) 1 0.1 10 [D.pinf]) 0 = 5 ∧
    convert floatEnc (Img.mk 1 1 1 [D.fin 2]) (Cam.mk 1 0 0)
      (ScanIn.mk (-5) 1 0.1 10 [D.pinf]) 1 1 = none := by
  have hidx : indexOf floatEnc (Cam.mk 1 0 0)
      (ScanIn.mk (-5) 1 0.1 10 [D.pinf]) 0 = 5 := by
    rw [indexOf_center _ _ _ _ (by norm_num) (by norm_num [floatEnc]), toIntC,
      if_pos (by norm_num)]
    norm_num
  refine ⟨hidx, ?_⟩
  rw [convert_one _ _ _ _ _ rfl]
  unfold stepPixel
  rw [show readPix (Img.mk 1 1 1 [D.fin 2]) (offsetOf (Cam.mk 1 0 0).cy 1) 0
      = some (D.fin 2) by
    rw [show (Cam.mk 1 0 0).cy = (0 : ℝ) from rfl, offsetOf_zero_one]; rfl]
  dsimp only
  rw [if_neg]
  rw [hidx]
  intro hc
  have := hc.2
  norm_num at this

/-- C1 amended: `convert` never checks the bin index against the output
array: a pixel whose accesses are in bounds is processed and touches only
its own bin, while a pixel whose bin index falls outside
`[0, len(ranges))` is not discarded — its unconditional read of
`ranges[index]` is out of bounds (undefined behaviour, modelled `none`).
In-bounds accesses for every pixel are therefore a caller obligation, not
a property `convert` enforces. -/
theorem c1_access_bounds (enc : Enc T) (img : Img T) (cam : Cam) (scan : ScanIn)
    (rs : List D) (v u : ℤ) :
    (pixOk enc img cam scan rs.length (v, u) →
      stepPixel enc img cam scan rs v u =
        some (applyPix enc img cam scan rs (v, u)) ∧
      ∀ j : ℕ, j ≠ (indexOf enc cam scan u).toNat →
        (applyPix enc img cam scan rs (v, u)).getD j D.nan = rs.getD j D.nan) ∧
    (∀ depth : T, readPix img v u = some depth →
      ¬ (0 ≤ indexOf enc cam scan u ∧ (indexOf enc cam scan u).toNat < rs.length) →
      stepPixel enc img cam scan rs v u = none) := by
  constructor
  · intro h
    exact ⟨stepPixel_eq_applyPix enc img cam scan rs (v, u) h,
      fun j hj => applyPix_getD_ne enc img cam scan rs (v, u) j hj⟩
  · intro depth hrd hnb
    unfold stepPixel
    rw [hrd]
    dsimp only
    rw [if_neg hnb]

theorem c1_access_bounds_witness :
    stepPixel floatEnc (Img.mk 1 1 1 [D.fin 2]) (Cam.mk 1 0 0)
      (ScanIn.mk 0 1 0.1 10 [D.pinf]) [D.pinf] 0 0 =
      some (applyPix floatEnc (Img.mk 1 1 1 [D.fin 2]) (Cam.mk 1 0 0)
        (ScanIn.mk 0 1 0.1 10 [D.pinf]) [D.pinf] (0, 0)) := by
  have hidx : indexOf floatEnc (Cam.mk 1 0 0)
      (ScanIn.mk 0 1 0.1 10 [D.pinf]) 0 = 0 :=
    indexOf_center_zero _ _ _ _ (by norm_num) (by norm_num [floatEnc]) rfl rfl
  exact ((c1_access_bounds floatEnc (Img.mk 1 1 1 [D.fin 2]) (Cam.mk 1 0 0)
    (ScanIn.mk 0 1 0.1 10 [D.pinf]) [D.pinf] 0 0).1
    ⟨by decide, by rw [hidx], by rw [hidx]; norm_num⟩).1

/-- C3 counterexample: the float-meter encoding treats the (physically
meaningless) sample −5 m as valid; at the principal-point column the
stored range is `hypot(0, −5) = 5`, not `to_meters(depth) = −5`, so the
claim's "resolved range equals to_meters(depth)" fails for valid in-range
pixels with negative forward distance. -/
theorem c3_counterexample :
    floatEnc.valid (D.fin (-5)) = true ∧
    floatEnc.toMetersR (D.fin (-5)) = -5 ∧
    convert floatEnc (Img.mk 1 1 1 [D.fin (-5)]) (Cam.mk 1 0 0)
      (ScanIn.mk 0 1 0.1 10 [D.pinf]) 1 1 = some [D.fin 5] ∧
    D.fin (5 : ℝ) ≠ D.fin (floatEnc.toMetersR (D.fin (-5))) := by
  have hc : candOf floatEnc (Cam.mk 1 0 0) 0 (D.fin (-5)) = D.fin 5 := by
    rw [candOf_valid _ _ _ _ rfl]
    congr 1
    rw [show (((0 : ℤ) : ℝ) - (Cam.mk 1 0 0).cx) * floatEnc.asReal (D.fin (-5)) *
        constantX floatEnc (Cam.mk 1 0 0) = 0 by norm_num [floatEnc, constantX]]
    rw [show floatEnc.toMetersR (D.fin (-5)) = -5 from rfl]
    rw [show (0 : ℝ) ^ 2 + (-5 : ℝ) ^ 2 = 25 by norm_num]
    rw [show (25 : ℝ) = 5 ^ 2 by norm_num]
    exact Real.sqrt_sq (by norm_num)
  refine ⟨rfl, rfl, ?_, ?_⟩
  · rw [convert_one _ _ _ _ _ rfl]
    have hidx : indexOf floatEnc (Cam.mk 1 0 0)
        (ScanIn.mk 0 1 0.1 10 [D.pinf]) 0 = 0 :=
      indexOf_center_zero _ _ _ _ (by norm_num) (by norm_num [floatEnc]) rfl rfl
    rw [stepPixel_eval _ _ _ _ _ _ _ _
      (by rw [show (Cam.mk 1 0 0).cy = (0 : ℝ) from rfl, offsetOf_zero_one]; rfl)
      hidx (by norm_num)]
    have hup : use_point (D.fin 5) (([D.pinf]).getD 0 D.nan) 0.1 10 :=
      ⟨⟨by norm_num, by norm_num⟩, Or.inl (fun hw => hw)⟩
    rw [hc, binUpdate_write _ _ _ _ _ hup]
    rfl
  · intro h
    rw [show floatEnc.toMetersR (D.fin (-5)) = -5 from rfl] at h
    have h5 : (5 : ℝ) = -5 := D.fin.inj h
    norm_num at h5

/-- C3 amended: for a valid sample the candidate offered to the reduction
is `hypot((u − principal_point_x)·depth·constant_x, to_meters(depth))`;
at the principal-point column the lateral term vanishes so the candidate
is `|to_meters(depth)|`, and — provided `to_meters(depth) ≥ 0`, which the
integer encoding always satisfies but the float encoding does not (see
the counterexample) — a single valid in-range pixel there resolves its
bin to exactly `to_meters(depth)`. -/
theorem c3_candidate_and_center (enc : Enc T) (img : Img T) (cam : Cam)
    (scan : ScanIn) (sh : ℤ) (depth : T) (u : ℤ)
    (hval : enc.valid depth = true) :
    candOf enc cam u depth =
      D.fin (Real.sqrt ((((u : ℝ) - cam.cx) * enc.asReal depth *
        constantX enc cam) ^ 2 + enc.toMetersR depth ^ 2)) ∧
    ((u : ℝ) = cam.cx → candOf enc cam u depth = D.fin |enc.toMetersR depth|) ∧
    ((0 : ℝ) = cam.cx → 0 ≤ enc.toMetersR depth →
      img.width = 1 →
      readPix img (offsetOf cam.cy sh) 0 = some depth →
      indexOf enc cam scan 0 = 0 →
      scan.ranges = [D.pinf] →
      scan.range_min < enc.toMetersR depth →
      enc.toMetersR depth < scan.range_max →
      convert enc img cam scan sh 1 = some [D.fin (enc.toMetersR depth)]) := by
  have hcenter : ∀ w : ℤ, (w : ℝ) = cam.cx →
      candOf enc cam w depth = D.fin |enc.toMetersR depth| := by
    intro w hw
    rw [candOf_valid _ _ _ _ hval, hw, sub_self, zero_mul, zero_mul]
    rw [show (0 : ℝ) ^ 2 + enc.toMetersR depth ^ 2 = enc.toMetersR depth ^ 2 by ring]
    rw [Real.sqrt_sq_eq_abs]
  refine ⟨candOf_valid enc cam u depth hval, hcenter u, ?_⟩
  intro hcx hz hw hread hidx hranges hmin hmax
  rw [convert_one _ _ _ _ _ hw, hranges]
  rw [stepPixel_eval _ _ _ _ _ _ _ _ hread hidx (by norm_num)]
  have hcand : candOf enc cam 0 depth = D.fin (enc.toMetersR depth) := by
    rw [hcenter 0 (by rw [← hcx]; norm_num), abs_of_nonneg hz]
  have hup : use_point (D.fin (enc.toMetersR depth)) (([D.pinf]).getD 0 D.nan)
      scan.range_min scan.range_max := ⟨⟨hmin, hmax⟩, Or.inl (fun hx => hx)⟩
  rw [hcand, binUpdate_write _ _ _ _ _ hup]
  rfl

theorem c3_candidate_and_center_witness :
    convert uint16Enc (Img.mk 1 1 1 [2000]) (Cam.mk 1 0 0)
      (ScanIn.mk 0 1 0.1 10 [D.pinf]) 1 1 = some [D.fin 2] := by
  have h := (c3_candidate_and_center uint16Enc (Img.mk 1 1 1 [2000]) (Cam.mk 1 0 0)
    (ScanIn.mk 0 1 0.1 10 [D.pinf]) 1 2000 0 rfl).2.2
    (by norm_num) (by norm_num [uint16Enc]) rfl
    (by rw [show (Cam.mk 1 0 0).cy = (0 : ℝ) from rfl, offsetOf_zero_one]; rfl)
    (indexOf_center_zero _ _ _ _ (by norm_num) (by norm_num [uint16Enc]) rfl rfl)
    rfl (by norm_num [uint16Enc]) (by norm_num [uint16Enc])
  rw [show uint16Enc.toMetersR 2000 = 2 by norm_num [uint16Enc]] at h
  exact h

/-- C7 counterexample: with a negative `range_min` the invalid
integer-encoding sample 0 is not screened out: it passes through as the
candidate 0.0, which lies strictly inside `(−1, 10)` and overwrites the
sentinel — the bin is set by an invalid pixel alone. -/
theorem c7_counterexample :
    uint16Enc.valid 0 = false ∧
    convert uint16Enc (Img.mk 1 1 1 [0]) (Cam.mk 1 0 0)
      (ScanIn.mk 0 1 (-1) 10 [D.pinf]) 1 1 = some [D.fin 0] ∧
    D.fin (0 : ℝ) ≠ D.pinf := by
  refine ⟨rfl, ?_, fun h => by cases h⟩
  rw [convert_one _ _ _ _ _ rfl]
  have hidx : indexOf uint16Enc (Cam.mk 1 0 0)
      (ScanIn.mk 0 1 (-1) 10 [D.pinf]) 0 = 0 :=
    indexOf_center_zero _ _ _ _ (by norm_num) (by norm_num [uint16Enc]) rfl rfl
  rw [stepPixel_eval _ _ _ _ _ _ _ _
    (by rw [show (Cam.mk 1 0 0).cy = (0 : ℝ) from rfl, offsetOf_zero_one]; rfl)
    hidx (by norm_num)]
  rw [candOf_invalid _ _ _ _ rfl]
  rw [show uint16Enc.asD 0 = D.fin ((0 : ℕ) : ℝ) from rfl]
  have hup : use_point (D.fin ((0 : ℕ) : ℝ)) (([D.pinf]).getD 0 D.nan) (-1) 10 :=
    ⟨⟨by norm_num, by norm_num⟩, Or.inl (fun hw => hw)⟩
  rw [binUpdate_write _ _ _ _ _ hup]
  norm_num

/-- C7 amended: provided `range_min ≥ 0`, an invalid depth sample (raw 0
for the integer-millimeter encoding; NaN or ±∞ for the float-meter
encoding) yields a candidate outside the acceptance window, so it never
sets a bin by itself and never aborts the loop — its pixel step returns
the ranges unchanged whenever its accesses are in bounds; and any bin
that receives only out-of-window candidates across the whole window still
holds its initial value after `convert` returns.  (Without
`range_min ≥ 0` the integer encoding's invalid sample becomes the
in-window candidate 0, see the counterexample.) -/
theorem c7_invalid_handling (cam : Cam) (rmin rmax : ℝ) (h0 : 0 ≤ rmin) :
    (∀ (u : ℤ) (n : ℕ), uint16Enc.valid n = false →
      ¬ inWindow (candOf uint16Enc cam u n) rmin rmax) ∧
    (∀ (u : ℤ) (d : D), floatEnc.valid d = false →
      ¬ inWindow (candOf floatEnc cam u d) rmin rmax) ∧
    (∀ (T : Type) (enc : Enc T) (img : Img T) (scan : ScanIn) (rs : List D)
      (v u : ℤ) (depth : T),
      readPix img v u = some depth →
      ¬ inWindow (candOf enc cam u depth) scan.range_min scan.range_max →
      0 ≤ indexOf enc cam scan u → (indexOf enc cam scan u).toNat < rs.length →
      stepPixel enc img cam scan rs v u = some rs) ∧
    (∀ (T : Type) (enc : Enc T) (img : Img T) (scan : ScanIn) (sh m : ℤ) (i : ℕ)
      (out : List D), convert enc img cam scan sh m = some out →
      (∀ p ∈ windowPixels (offsetOf cam.cy sh) m img.width, ∀ depth,
        readPix img p.1 p.2 = some depth → (indexOf enc cam scan p.2).toNat = i →
        ¬ inWindow (candOf enc cam p.2 depth) scan.range_min scan.range_max) →
      out.getD i D.nan = scan.ranges.getD i D.nan) := by
  refine ⟨?_, ?_, ?_, ?_⟩
  · intro u n hv
    rw [candOf_invalid _ _ _ _ hv]
    exact uint16_invalid_not_inWindow h0 n hv
  · intro u d hv
    rw [candOf_invalid _ _ _ _ hv]
    exact float_invalid_not_inWindow d hv
  · intro T enc img scan rs v u depth hread hnw hb1 hb2
    unfold stepPixel
    rw [hread]
    dsimp only
    rw [if_pos ⟨hb1, hb2⟩]
    unfold binUpdate
    rw [if_neg (fun hc => hnw hc.1)]
  · intro T enc img scan sh m i out hconv hall
    rw [convert_some_imp enc img cam scan sh m out hconv]
    exact foldl_applyPix_getD_eq enc img cam scan i _ scan.ranges hall

theorem c7_invalid_handling_witness :
    ¬ inWindow (candOf floatEnc (Cam.mk 1 0 0) 0 D.nan) 0.1 10 :=
  (c7_invalid_handling (Cam.mk 1 0 0) 0.1 10 (by norm_num)).2.1 0 D.nan rfl

theorem range_flatMap_length (o : ℤ) (w : ℕ) (n : ℕ) :
    ((List.range n).flatMap
      (fun k => (List.range w).map (fun (j : ℕ) => (o + (k : ℤ), (j : ℤ))))).length
      = n * w := by
  induction n with
  | zero => simp
  | succ n ih =>
    rw [List.range_succ, List.flatMap_append, List.length_append, ih]
    simp [Nat.succ_mul]

theorem windowPixels_length (o m : ℤ) (w : ℕ) :
    (windowPixels o m w).length = m.toNat * w := by
  unfold windowPixels
  exact range_flatMap_length o w m.toNat

theorem windowPixels_nodup (o m : ℤ) (w : ℕ) : (windowPixels o m w).Nodup := by
  unfold windowPixels
  rw [List.nodup_flatMap]
  constructor
  · intro k _
    refine (List.nodup_range w).map ?_
    intro j1 j2 hj
    rw [Prod.mk.injEq] at hj
    exact_mod_cast hj.2
  · refine List.Pairwise.imp ?_ (List.pairwise_lt_range _)
    intro k1 k2 hk x hx1 hx2
    simp only [List.mem_map] at hx1 hx2
    obtain ⟨j1, _, he1⟩ := hx1
    obtain ⟨j2, _, he2⟩ := hx2
    rw [← he2, Prod.mk.injEq] at he1
    have : (k1 : ℤ) = k2 := by omega
    omega

theorem readPix_isSome (img : Img T) (v u : ℤ)
    (hdata : img.data.length = img.height * img.row_step)
    (hwidth : img.width ≤ img.row_step)
    (hv0 : 0 ≤ v) (hv1 : v < (img.height : ℤ))
    (hu0 : 0 ≤ u) (hu1 : u < (img.width : ℤ)) :
    (readPix img v u).isSome = true := by
  unfold readPix
  have hrs0 : (0 : ℤ) ≤ (img.row_step : ℤ) := by positivity
  have hpos : 0 ≤ v * (img.row_step : ℤ) + u :=
    add_nonneg (mul_nonneg hv0 hrs0) hu0
  rw [if_pos hpos]
  have hwz : u < (img.row_step : ℤ) := by
    have : (img.width : ℤ) ≤ (img.row_step : ℤ) := by exact_mod_cast hwidth
    omega
  have h1 : v * (img.row_step : ℤ) + u < ((img.height * img.row_step : ℕ) : ℤ) := by
    push_cast
    have hv2 : v ≤ (img.height : ℤ) - 1 := by omega
    calc v * (img.row_step : ℤ) + u
        ≤ ((img.height : ℤ) - 1) * img.row_step + u := by
          exact add_le_add_right (mul_le_mul_of_nonneg_right hv2 hrs0) u
      _ < ((img.height : ℤ) - 1) * img.row_step + img.row_step := by
          exact add_lt_add_left hwz _
      _ = (img.height : ℤ) * img.row_step := by ring
  have h2 : (v * (img.row_step : ℤ) + u).toNat < img.data.length := by
    rw [hdata]
    omega
  rw [List.get?_eq_getElem?]
  simp [List.getElem?_eq_getElem h2]

theorem pixOk_of_window (enc : Enc T) (img : Img T) (cam : Cam) (scan : ScanIn)
    (o sh : ℤ) (p : ℤ × ℤ)
    (hmem : p ∈ windowPixels o sh img.width)
    (ho : 0 ≤ o) (hoh : o + sh ≤ (img.height : ℤ))
    (hdata : img.data.length = img.height * img.row_step)
    (hwidth : img.width ≤ img.row_step)
    (hidx : ∀ u : ℤ, 0 ≤ u → u < (img.width : ℤ) →
      0 ≤ indexOf enc cam scan u ∧
        (indexOf enc cam scan u).toNat < scan.ranges.length) :
    pixOk enc img cam scan scan.ranges.length p := by
  obtain ⟨v, u⟩ := p
  rw [mem_windowPixels] at hmem
  obtain ⟨h1, h2, h3, h4⟩ := hmem
  exact ⟨readPix_isSome img v u hdata hwidth (by omega) (by omega) h3 h4,
    (hidx u h3 h4).1, (hidx u h3 h4).2⟩

/-- C8: for every input satisfying the window precondition (and whose bin
indices all land inside the output array — the code has no bin-bounds
check, see C1), `convert` terminates with a complete result: it folds
over the `windowPixels` list, which enumerates every pixel of the window
exactly once (it has no duplicates) and has exactly
`scan_height × width` entries; there is no early exit. -/
theorem c8_full_window (enc : Enc T) (img : Img T) (cam : Cam) (scan : ScanIn)
    (sh : ℤ)
    (ho : 0 ≤ offsetOf cam.cy sh)
    (hoh : offsetOf cam.cy sh + sh ≤ (img.height : ℤ))
    (hdata : img.data.length = img.height * img.row_step)
    (hwidth : img.width ≤ img.row_step)
    (hidx : ∀ u : ℤ, 0 ≤ u → u < (img.width : ℤ) →
      0 ≤ indexOf enc cam scan u ∧
        (indexOf enc cam scan u).toNat < scan.ranges.length) :
    convert enc img cam scan sh sh =
      some ((windowPixels (offsetOf cam.cy sh) sh img.width).foldl
        (applyPix enc img cam scan) scan.ranges) ∧
    (windowPixels (offsetOf cam.cy sh) sh img.width).length =
      sh.toNat * img.width ∧
    (windowPixels (offsetOf cam.cy sh) sh img.width).Nodup :=
  ⟨convert_eq_foldl enc img cam scan sh sh
      (fun p hp => pixOk_of_window enc img cam scan _ sh p hp ho hoh hdata
        hwidth hidx),
    windowPixels_length _ _ _, windowPixels_nodup _ _ _⟩

theorem c8_full_window_witness :
    (convert uint16Enc (Img.mk 1 1 1 [500]) (Cam.mk 1 0 0)
      (ScanIn.mk 0 1 0.1 10 [D.pinf]) 1 1).isSome = true := by
  have h := (c8_full_window uint16Enc (Img.mk 1 1 1 [500]) (Cam.mk 1 0 0)
    (ScanIn.mk 0 1 0.1 10 [D.pinf]) 1
    (by rw [show (Cam.mk 1 0 0).cy = (0 : ℝ) from rfl, offsetOf_zero_one])
    (by rw [show (Cam.mk 1 0 0).cy = (0 : ℝ) from rfl, offsetOf_zero_one]; norm_num)
    rfl (le_refl 1)
    (fun u hu0 hu1 => by
      have hu : u = 0 := by
        have : u < ((1 : ℕ) : ℤ) := hu1
        omega
      subst hu
      rw [indexOf_center_zero _ _ _ _ (by norm_num) (by norm_num [uint16Enc])
        rfl rfl]
      exact ⟨le_refl 0, by norm_num⟩)).1
  rw [h]
  rfl

/-- C10: the row loop on line 205 is bounded by the stored configuration
member `scan_height_`, not by the `scan_height` argument: the pixel list
`convert` folds over spans exactly the `scan_height_` rows starting at
`offset` and has `scan_height_ · width` entries, and the `scan_height`
argument influences the conversion only through the starting offset
`offsetOf center_y scan_height` computed on line 202. -/
theorem c10_member_bounds_rows (enc : Enc T) (img : Img T) (cam : Cam)
    (scan : ScanIn) (a a' m : ℤ)
    (h : offsetOf cam.cy a = offsetOf cam.cy a') :
    convert enc img cam scan a m = convert enc img cam scan a' m ∧
    (windowPixels (offsetOf cam.cy a) m img.width).length = m.toNat * img.width ∧
    (∀ v u : ℤ, (v, u) ∈ windowPixels (offsetOf cam.cy a) m img.width ↔
      offsetOf cam.cy a ≤ v ∧ v < offsetOf cam.cy a + m ∧
        0 ≤ u ∧ u < (img.width : ℤ)) := by
  refine ⟨by unfold convert; rw [h], windowPixels_length _ _ _, ?_⟩
  intro v u
  exact mem_windowPixels

theorem c10_member_bounds_rows_witness :
    convert uint16Enc (Img.mk 1 1 1 [500]) (Cam.mk 1 0 0)
      (ScanIn.mk 0 1 0.1 10 [D.pinf]) 2 1 =
    convert uint16Enc (Img.mk 1 1 1 [500]) (Cam.mk 1 0 0)
      (ScanIn.mk 0 1 0.1 10 [D.pinf]) 3 1 :=
  (c10_member_bounds_rows uint16Enc (Img.mk 1 1 1 [500]) (Cam.mk 1 0 0)
    (ScanIn.mk 0 1 0.1 10 [D.pinf]) 2 3 1 rfl).1

theorem dle_refl (v : D) : dle v v := by
  cases v with
  | fin a => exact le_refl a
  | pinf => trivial
  | ninf => trivial
  | nan => trivial

theorem dle_trans {x y z : D} (h1 : dle x y) (h2 : dle y z) : dle x z := by
  cases x <;> cases y <;> cases z <;>
    first
      | trivial
      | exact le_trans h1 h2

theorem stepVal_entryOk (s r : D) (rmin rmax : ℝ)
    (hs : entryOk rmin rmax s) :
    entryOk rmin rmax (stepVal s r rmin rmax) := by
  unfold stepVal
  split
  · rename_i hp
    exact Or.inr hp.1
  · exact hs

theorem stepVal_dle_self (s r : D) (rmin rmax : ℝ)
    (hs : entryOk rmin rmax s) : dle (stepVal s r rmin rmax) s := by
  unfold stepVal
  split
  · rename_i hp
    obtain ⟨hw, hor⟩ := hp
    cases r with
    | fin c =>
      cases s with
      | fin a =>
        rcases hor with h | h
        · rcases hs with h1 | h1
          · exact D.noConfusion h1
          · exact absurd h1 h
        · exact le_of_lt h
      | pinf => trivial
      | ninf => trivial
      | nan => trivial
    | pinf => exact hw.elim
    | ninf => exact hw.elim
    | nan => exact hw.elim
  · exact dle_refl s

theorem stepVal_mono (s s' r : D) (rmin rmax : ℝ)
    (hs : entryOk rmin rmax s) (hle : dle s s') :
    dle (stepVal s r rmin rmax) (stepVal s' r rmin rmax) := by
  unfold stepVal
  by_cases hp : use_point r s rmin rmax
  · by_cases hp' : use_point r s' rmin rmax
    · rw [if_pos hp, if_pos hp']
      exact dle_refl r
    · rw [if_pos hp, if_neg hp']
      obtain ⟨hw, hor⟩ := hp
      cases r with
      | fin c =>
        cases s' with
        | pinf => trivial
        | ninf => trivial
        | nan => trivial
        | fin b =>
          cases s with
          | pinf => exact hle.elim
          | ninf => exact hle.elim
          | nan => exact hle.elim
          | fin a =>
            rcases hor with h | h
            · rcases hs with h1 | h1
              · exact D.noConfusion h1
              · exact absurd h1 h
            · have hc : c < a := h
              have hab : a ≤ b := hle
              exact le_of_lt (lt_of_lt_of_le hc hab)
      | pinf => exact hw.elim
      | ninf => exact hw.elim
      | nan => exact hw.elim
  · by_cases hp' : use_point r s' rmin rmax
    · rw [if_neg hp, if_pos hp']
      obtain ⟨hw, _⟩ := hp'
      cases r with
      | fin c =>
        cases s with
        | pinf => exact absurd ⟨hw, Or.inl (fun h => h)⟩ hp
        | ninf => exact absurd ⟨hw, Or.inl (fun h => h)⟩ hp
        | nan => exact absurd ⟨hw, Or.inl (fun h => h)⟩ hp
        | fin a =>
          have : ¬ dLT (D.fin c) (D.fin a) := fun hd => hp ⟨hw, Or.inr hd⟩
          exact not_lt.mp this
      | pinf => exact hw.elim
      | ninf => exact hw.elim
      | nan => exact hw.elim
    · rw [if_neg hp, if_neg hp']
      exact hle

theorem binUpdate_getD (rs : List D) (i : ℕ) (r : D) (a b : ℝ)
    (hi : i < rs.length) (j : ℕ) :
    (binUpdate rs i r a b).getD j D.nan =
      if j = i then stepVal (rs.getD i D.nan) r a b else rs.getD j D.nan := by
  by_cases hj : j = i
  · subst hj
    unfold binUpdate stepVal
    by_cases hp : use_point r (rs.getD j D.nan) a b
    · rw [if_pos hp, if_pos hp, if_pos rfl, List.getD_eq_getElem?_getD,
        List.getElem?_set_self hi, Option.getD_some]
    · rw [if_neg hp, if_neg hp, if_pos rfl]
  · rw [if_neg hj]
    exact binUpdate_getD_ne rs i j r a b hj

theorem applyPix_dle_self (enc : Enc T) (img : Img T) (cam : Cam)
    (scan : ScanIn) (rs : List D)
    (hOk : rangesOk scan.range_min scan.range_max rs) (p : ℤ × ℤ) (j : ℕ) :
    dle ((applyPix enc img cam scan rs p).getD j D.nan) (rs.getD j D.nan) := by
  unfold applyPix
  cases hr : readPix img p.1 p.2 with
  | none => exact dle_refl _
  | some depth =>
    dsimp only
    split
    · rename_i hb
      rw [binUpdate_getD _ _ _ _ _ hb.2]
      split
      · rename_i hj
        subst hj
        exact stepVal_dle_self _ _ _ _ (hOk _ hb.2)
      · exact dle_refl _
    · exact dle_refl _

theorem applyPix_rangesOk (enc : Enc T) (img : Img T) (cam : Cam)
    (scan : ScanIn) (rs : List D)
    (hOk : rangesOk scan.range_min scan.range_max rs) (p : ℤ × ℤ) :
    rangesOk scan.range_min scan.range_max (applyPix enc img cam scan rs p) := by
  intro j hj
  rw [applyPix_length] at hj
  unfold applyPix
  cases hr : readPix img p.1 p.2 with
  | none => exact hOk j hj
  | some depth =>
    dsimp only
    split
    · rename_i hb
      rw [binUpdate_getD _ _ _ _ _ hb.2]
      split
      · rename_i hjj
        subst hjj
        exact stepVal_entryOk _ _ _ _ (hOk _ hb.2)
      · exact hOk j hj
    · exact hOk j hj

theorem applyPix_mono (enc : Enc T) (img : Img T) (cam : Cam) (scan : ScanIn)
    (rs rs' : List D) (hlen : rs.length = rs'.length)
    (hOk : rangesOk scan.range_min scan.range_max rs)
    (hle : ∀ j : ℕ, dle (rs.getD j D.nan) (rs'.getD j D.nan)) (p : ℤ × ℤ)
    (j : ℕ) :
    dle ((applyPix enc img cam scan rs p).getD j D.nan)
      ((applyPix enc img cam scan rs' p).getD j D.nan) := by
  unfold applyPix
  cases hr : readPix img p.1 p.2 with
  | none => exact hle j
  | some depth =>
    dsimp only
    rw [hlen]
    by_cases hb : 0 ≤ indexOf enc cam scan p.2 ∧
        (indexOf enc cam scan p.2).toNat < rs'.length
    · rw [if_pos hb, if_pos hb,
        binUpdate_getD _ _ _ _ _ (hlen ▸ hb.2 : _ < rs.length),
        binUpdate_getD _ _ _ _ _ hb.2]
      split
      · rename_i hjj
        subst hjj
        exact stepVal_mono _ _ _ _ _ (hOk _ (hlen ▸ hb.2)) (hle _)
      · exact hle j
    · rw [if_neg hb, if_neg hb]
      exact hle j

theorem foldl_applyPix_length (enc : Enc T) (img : Img T) (cam : Cam)
    (scan : ScanIn) (L : List (ℤ × ℤ)) :
    ∀ rs : List D, (L.foldl (applyPix enc img cam scan) rs).length = rs.length := by
  induction L with
  | nil => intro rs; rfl
  | cons p L ih =>
    intro rs
    rw [List.foldl_cons, ih, applyPix_length]

theorem foldl_applyPix_rangesOk (enc : Enc T) (img : Img T) (cam : Cam)
    (scan : ScanIn) (L : List (ℤ × ℤ)) :
    ∀ rs : List D, rangesOk scan.range_min scan.range_max rs →
      rangesOk scan.range_min scan.range_max
        (L.foldl (applyPix enc img cam scan) rs) := by
  induction L with
  | nil => intro rs h; exact h
  | cons p L ih =>
    intro rs h
    rw [List.foldl_cons]
    exact ih _ (applyPix_rangesOk enc img cam scan rs h p)

theorem foldl_applyPix_dle_init (enc : Enc T) (img : Img T) (cam : Cam)
    (scan : ScanIn) (L : List (ℤ × ℤ)) :
    ∀ rs : List D, rangesOk scan.range_min scan.range_max rs →
      ∀ j : ℕ, dle ((L.foldl (applyPix enc img cam scan) rs).getD j D.nan)
        (rs.getD j D.nan) := by
  induction L with
  | nil => intro rs _ j; exact dle_refl _
  | cons p L ih =>
    intro rs h j
    rw [List.foldl_cons]
    exact dle_trans
      (ih _ (applyPix_rangesOk enc img cam scan rs h p) j)
      (applyPix_dle_self enc img cam scan rs h p j)

theorem foldl_applyPix_mono (enc : Enc T) (img : Img T) (cam : Cam)
    (scan : ScanIn) (L : List (ℤ × ℤ)) :
    ∀ rs rs' : List D, rs.length = rs'.length →
      rangesOk scan.range_min scan.range_max rs →
      rangesOk scan.range_min scan.range_max rs' →
      (∀ j : ℕ, dle (rs.getD j D.nan) (rs'.getD j D.nan)) →
      ∀ j : ℕ, dle ((L.foldl (applyPix enc img cam scan) rs).getD j D.nan)
        ((L.foldl (applyPix enc img cam scan) rs').getD j D.nan) := by
  induction L with
  | nil => intro rs rs' _ _ _ h j; exact h j
  | cons p L ih =>
    intro rs rs' hlen hOk hOk' hle j
    rw [List.foldl_cons, List.foldl_cons]
    exact ih _ _
      (by rw [applyPix_length, applyPix_length, hlen])
      (applyPix_rangesOk enc img cam scan rs hOk p)
      (applyPix_rangesOk enc img cam scan rs' hOk' p)
      (applyPix_mono enc img cam scan rs rs' hlen hOk hle p) j

theorem windowPixels_append (o : ℤ) (a b : ℕ) (w : ℕ) :
    windowPixels o ((a : ℤ) + (b : ℤ)) w =
      windowPixels o a w ++ windowPixels (o + a) b w := by
  unfold windowPixels
  rw [show ((a : ℤ) + (b : ℤ)).toNat = a + b by omega, Int.toNat_natCast,
    Int.toNat_natCast, List.range_add, List.flatMap_append, List.flatMap_map]
  congr 1
  refine congrArg (List.range b).flatMap (funext fun k => ?_)
  refine congrArg (fun f => List.map f (List.range w)) (funext fun j => ?_)
  rw [Prod.mk.injEq]
  exact ⟨by push_cast; ring, rfl⟩

theorem windowPixels_append2 (o m1 m2 : ℤ) (w : ℕ) (h1 : 0 ≤ m1)
    (h2 : 0 ≤ m2) :
    windowPixels o (m1 + m2) w =
      windowPixels o m1 w ++ windowPixels (o + m1) m2 w := by
  obtain ⟨a, rfl⟩ : ∃ a : ℕ, (a : ℤ) = m1 := ⟨m1.toNat, Int.toNat_of_nonneg h1⟩
  obtain ⟨b, rfl⟩ : ∃ b : ℕ, (b : ℤ) = m2 := ⟨m2.toNat, Int.toNat_of_nonneg h2⟩
  exact windowPixels_append o a b w

theorem toIntC_sub_le {x : ℝ} {k : ℤ} (hk : 0 ≤ k) :
    toIntC x ≤ toIntC (x - (k : ℝ)) + k := by
  have hkr : (0 : ℝ) ≤ (k : ℝ) := by exact_mod_cast hk
  rcases le_or_lt 0 (x - (k : ℝ)) with h1 | h1
  · rw [toIntC_of_nonneg h1, toIntC_of_nonneg (by linarith), Int.floor_sub_int]
    omega
  · rw [toIntC_of_neg h1, Int.ceil_sub_int]
    rcases le_or_lt 0 x with h2 | h2
    · rw [toIntC_of_nonneg h2]
      have := Int.floor_le_ceil x
      omega
    · rw [toIntC_of_neg h2]
      omega

theorem offsetOf_one (cy : ℝ) : offsetOf cy 1 = toIntC cy := by
  rw [offsetOf, show Int.tdiv 1 2 = 0 from rfl]
  norm_num

theorem center_row_mem (cy : ℝ) (N : ℤ) (hN : 1 ≤ N) :
    offsetOf cy N ≤ offsetOf cy 1 ∧ offsetOf cy 1 < offsetOf cy N + N := by
  have hk0 : 0 ≤ Int.tdiv N 2 := Int.tdiv_nonneg (by omega) (by omega)
  have hk1 : Int.tdiv N 2 ≤ N - 1 := by
    rw [Int.tdiv_eq_ediv (by omega) (by omega)]
    omega
  have hkr : (0 : ℝ) ≤ ((Int.tdiv N 2 : ℤ) : ℝ) := by exact_mod_cast hk0
  rw [offsetOf_one, offsetOf]
  constructor
  · exact toIntC_mono (by linarith)
  · have h := toIntC_sub_le (x := cy) hk0
    omega

/-- C9: starting from the same sentinel-initialized ranges, running the
conversion with `scan_height = N ≥ 1` yields for every bin a value no
farther than the run with `scan_height = 1` centered on the same
principal-point row — under the order in which the sentinel counts as
largest — because the single center row of the 1-row window is among the
rows of the N-row window and extra pixels can only tighten a bin. -/
theorem c9_taller_window_closer (enc : Enc T) (img : Img T) (cam : Cam)
    (scan : ScanIn) (N : ℤ) (hN : 1 ≤ N)
    (hinit : ∀ i : ℕ, i < scan.ranges.length → scan.ranges.getD i D.nan = D.pinf)
    (hok : ∀ p ∈ windowPixels (offsetOf cam.cy N) N img.width,
      pixOk enc img cam scan scan.ranges.length p) :
    ∃ rsN rs1 : List D,
      convert enc img cam scan N N = some rsN ∧
      convert enc img cam scan 1 1 = some rs1 ∧
      rsN.length = scan.ranges.length ∧ rs1.length = scan.ranges.length ∧
      ∀ i : ℕ, dle (rsN.getD i D.nan) (rs1.getD i D.nan) := by
  obtain ⟨hle1, hlt1⟩ := center_row_mem cam.cy N hN
  set oN := offsetOf cam.cy N with hoN
  set o1 := offsetOf cam.cy 1 with ho1
  have hL : windowPixels oN N img.width =
      windowPixels oN (o1 - oN) img.width ++
        (windowPixels o1 1 img.width ++
          windowPixels (o1 + 1) (N - (o1 - oN) - 1) img.width) := by
    have h1 := windowPixels_append2 oN (o1 - oN) (N - (o1 - oN)) img.width
      (by omega) (by omega)
    rw [show o1 - oN + (N - (o1 - oN)) = N by ring] at h1
    rw [show oN + (o1 - oN) = o1 by ring] at h1
    have h2 := windowPixels_append2 o1 1 (N - (o1 - oN) - 1) img.width
      (by omega) (by omega)
    rw [show (1 : ℤ) + (N - (o1 - oN) - 1) = N - (o1 - oN) by ring] at h2
    rw [h1, h2]
  have hOkInit : rangesOk scan.range_min scan.range_max scan.ranges :=
    fun i hi => Or.inl (hinit i hi)
  have hokM : ∀ p ∈ windowPixels o1 1 img.width,
      pixOk enc img cam scan scan.ranges.length p := by
    intro p hp
    exact hok p (by
      rw [hL]
      exact List.mem_append.mpr (Or.inr (List.mem_append.mpr (Or.inl hp))))
  refine ⟨(windowPixels oN N img.width).foldl (applyPix enc img cam scan)
      scan.ranges,
    (windowPixels o1 1 img.width).foldl (applyPix enc img cam scan) scan.ranges,
    convert_eq_foldl enc img cam scan N N hok,
    convert_eq_foldl enc img cam scan 1 1 hokM,
    foldl_applyPix_length enc img cam scan _ _,
    foldl_applyPix_length enc img cam scan _ _, ?_⟩
  intro i
  rw [hL, List.foldl_append, List.foldl_append]
  set A := windowPixels oN (o1 - oN) img.width
  set M := windowPixels o1 1 img.width
  set B := windowPixels (o1 + 1) (N - (o1 - oN) - 1) img.width
  set S0 := A.foldl (applyPix enc img cam scan) scan.ranges with hS0
  have hOk0 : rangesOk scan.range_min scan.range_max S0 :=
    foldl_applyPix_rangesOk enc img cam scan A scan.ranges hOkInit
  have hlen0 : S0.length = scan.ranges.length :=
    foldl_applyPix_length enc img cam scan A scan.ranges
  have h1 : ∀ j : ℕ, dle (S0.getD j D.nan) (scan.ranges.getD j D.nan) :=
    foldl_applyPix_dle_init enc img cam scan A scan.ranges hOkInit
  have h2 : ∀ j : ℕ,
      dle ((M.foldl (applyPix enc img cam scan) S0).getD j D.nan)
        ((M.foldl (applyPix enc img cam scan) scan.ranges).getD j D.nan) :=
    foldl_applyPix_mono enc img cam scan M S0 scan.ranges hlen0 hOk0 hOkInit h1
  have h3 : ∀ j : ℕ,
      dle ((B.foldl (applyPix enc img cam scan)
          (M.foldl (applyPix enc img cam scan) S0)).getD j D.nan)
        ((M.foldl (applyPix enc img cam scan) S0).getD j D.nan) :=
    foldl_applyPix_dle_init enc img cam scan B _
      (foldl_applyPix_rangesOk enc img cam scan M S0 hOk0)
  exact dle_trans (h3 i) (h2 i)

theorem c9_taller_window_closer_witness :
    ∃ rsN rs1 : List D,
      convert uint16Enc (Img.mk 1 3 1 [0, 2000, 0]) (Cam.mk 1 0 1)
        (ScanIn.mk 0 1 0.1 10 [D.pinf]) 3 3 = some rsN ∧
      convert uint16Enc (Img.mk 1 3 1 [0, 2000, 0]) (Cam.mk 1 0 1)
        (ScanIn.mk 0 1 0.1 10 [D.pinf]) 1 1 = some rs1 ∧
      rsN.length = 1 ∧ rs1.length = 1 ∧
      ∀ i : ℕ, dle (rsN.getD i D.nan) (rs1.getD i D.nan) := by
  have h := c9_taller_window_closer uint16Enc (Img.mk 1 3 1 [0, 2000, 0])
    (Cam.mk 1 0 1) (ScanIn.mk 0 1 0.1 10 [D.pinf]) 3 (by norm_num)
    (fun i hi => by
      have hi0 : i = 0 := by
        have : i < 1 := hi
        omega
      subst hi0
      rfl)
    (fun p hp => by
      refine pixOk_of_window uint16Enc _ (Cam.mk 1 0 1) _ _ 3 p hp ?_ ?_ rfl
        (le_refl 1) ?_
      · show 0 ≤ offsetOf (1 : ℝ) 3
        rw [offsetOf, show Int.tdiv 3 2 = 1 from rfl, toIntC,
          if_pos (by norm_num)]
        norm_num
      · show offsetOf (1 : ℝ) 3 + 3 ≤ ((3 : ℕ) : ℤ)
        rw [offsetOf, show Int.tdiv 3 2 = 1 from rfl, toIntC,
          if_pos (by norm_num)]
        norm_num
      · intro u hu0 hu1
        have hu : u = 0 := by
          have : u < ((1 : ℕ) : ℤ) := hu1
          omega
        subst hu
        rw [indexOf_center_zero _ _ _ _ (by norm_num) (by norm_num [uint16Enc])
          rfl rfl]
        exact ⟨le_refl 0, by norm_num⟩)
  exact h

end DepthScan
